import Mathlib

/-!
Verification of the timer state machine and persistence layer of the
nested time-recorder application.

The record tree is embedded as a pair of mutually inductive types
(a record and its list of children), mirroring the TimeRecord interface
of services/storage/interfaces.ts.  Fields kept: id, label, note,
parentId, isRunning, baseTime, startTime, time, isCollapsed, createdAt,
children.  UI-transient fields (avatarColor, isEditing, isEditingNote)
are omitted: no timing or persistence claim concerns them.

Timestamps are integers (milliseconds since epoch).  JavaScript
Math.floor((a - b) / 1000) on integer millisecond timestamps is floor
division, which for the positive divisor 1000 coincides with Lean Int
division (E-rounding).  JavaScript falsiness of the number 0 in
expressions such as record.time or 0 and record.startTime or now is
modelled explicitly by jsOr.
-/

mutual
inductive Record : Type where
  | mk : (id : String) → (label : String) → (note : Option String) →
         (parentId : Option String) → (isRunning : Bool) → (baseTime : Int) →
         (startTime : Option Int) → (time : Int) → (isCollapsed : Bool) →
         (createdAt : Nat) → (children : RecordList) → Record
inductive RecordList : Type where
  | nil : RecordList
  | cons : Record → RecordList → RecordList
end

def Record.id : Record → String
  | .mk i _ _ _ _ _ _ _ _ _ _ => i

def Record.label : Record → String
  | .mk _ lb _ _ _ _ _ _ _ _ _ => lb

def Record.note : Record → Option String
  | .mk _ _ nt _ _ _ _ _ _ _ _ => nt

def Record.parentId : Record → Option String
  | .mk _ _ _ p _ _ _ _ _ _ _ => p

def Record.isRunning : Record → Bool
  | .mk _ _ _ _ run _ _ _ _ _ _ => run

def Record.baseTime : Record → Int
  | .mk _ _ _ _ _ bt _ _ _ _ _ => bt

def Record.startTime : Record → Option Int
  | .mk _ _ _ _ _ _ st _ _ _ _ => st

def Record.time : Record → Int
  | .mk _ _ _ _ _ _ _ tm _ _ _ => tm

def Record.isCollapsed : Record → Bool
  | .mk _ _ _ _ _ _ _ _ col _ _ => col

def Record.createdAt : Record → Nat
  | .mk _ _ _ _ _ _ _ _ _ cr _ => cr

def Record.children : Record → RecordList
  | .mk _ _ _ _ _ _ _ _ _ _ ch => ch

mutual
def Record.beq : Record → Record → Bool
  | .mk i lb nt p run bt st tm col cr ch, .mk i2 lb2 nt2 p2 run2 bt2 st2 tm2 col2 cr2 ch2 =>
    i == i2 && lb == lb2 && nt == nt2 && p == p2 && run == run2 && bt == bt2 &&
    st == st2 && tm == tm2 && col == col2 && cr == cr2 && RecordList.beq ch ch2
def RecordList.beq : RecordList → RecordList → Bool
  | .nil, .nil => true
  | .cons r l, .cons r2 l2 => Record.beq r r2 && RecordList.beq l l2
  | _, _ => false
end

mutual
theorem recordBeq_iff : ∀ (a b : Record), Record.beq a b = true ↔ a = b
  | .mk i lb nt p run bt st tm col cr ch, .mk i2 lb2 nt2 p2 run2 bt2 st2 tm2 col2 cr2 ch2 => by
    simp [Record.beq, recordListBeq_iff ch ch2, and_assoc]
theorem recordListBeq_iff : ∀ (a b : RecordList), RecordList.beq a b = true ↔ a = b
  | .nil, .nil => by simp [RecordList.beq]
  | .nil, .cons _ _ => by simp [RecordList.beq]
  | .cons _ _, .nil => by simp [RecordList.beq]
  | .cons r l, .cons r2 l2 => by
    simp [RecordList.beq, recordBeq_iff r r2, recordListBeq_iff l l2]
end

instance : DecidableEq Record := fun a b =>
  decidable_of_iff (Record.beq a b = true) (recordBeq_iff a b)

instance : DecidableEq RecordList := fun a b =>
  decidable_of_iff (RecordList.beq a b = true) (recordListBeq_iff a b)

/-- Boolean existence of a record in a sibling list, as records.some in the source. -/
def RecordList.any (p : Record → Bool) : RecordList → Bool
  | .nil => false
  | .cons r l => p r || RecordList.any p l

def RecordList.length : RecordList → Nat
  | .nil => 0
  | .cons _ l => 1 + RecordList.length l

/-- First element of a sibling list, as updatedRecords[0] in the source. -/
def RecordList.headOpt : RecordList → Option Record
  | .nil => none
  | .cons r _ => some r

/- All identifiers occurring in a record and its subtree, in depth-first order. -/
mutual
def Record.subIds : Record → List String
  | .mk i _ _ _ _ _ _ _ _ _ ch => i :: RecordList.allIds ch
def RecordList.allIds : RecordList → List String
  | .nil => []
  | .cons r l => Record.subIds r ++ RecordList.allIds l
end

/- All records of a forest (every node of every tree), in depth-first order. -/
mutual
def Record.allNodes : Record → List Record
  | .mk i lb nt p run bt st tm col cr ch =>
    .mk i lb nt p run bt st tm col cr ch :: RecordList.allNodesL ch
def RecordList.allNodesL : RecordList → List Record
  | .nil => []
  | .cons r l => Record.allNodes r ++ RecordList.allNodesL l
end

/-- JavaScript a or-else b on numbers: 0 is the only falsy integer. -/
def jsOr (a b : Int) : Int := if a = 0 then b else a

/-- JavaScript record.startTime or now: an absent startTime and the (unreachable)
timestamp 0 are both falsy. -/
def jsOrStart : Option Int → Int → Int
  | none, now => now
  | some s, now => jsOr s now

@[simp] theorem jsOr_zero (a : Int) : jsOr a 0 = a := by
  unfold jsOr; split <;> simp_all

/- ------------------------------------------------------------------
Timer state machine: toggleRecord of the recorder execution screen.
------------------------------------------------------------------ -/

/- updateChildrenStatus of the source: recursively overwrite isRunning on every
descendant, leaving startTime, baseTime and time untouched. -/
mutual
def updateChildrenStatus (status : Bool) : RecordList → RecordList
  | .nil => .nil
  | .cons r l => .cons (updateChildStatus status r) (updateChildrenStatus status l)
def updateChildStatus (status : Bool) : Record → Record
  | .mk i lb nt p _ bt st tm col cr ch =>
    .mk i lb nt p status bt st tm col cr (updateChildrenStatus status ch)
end

/- findRecordById of the source: depth-first search for an identifier,
checking a record before its children and children before later siblings. -/
mutual
def findRecordById : RecordList → String → Option Record
  | .nil, _ => none
  | .cons r l, targetId =>
    match findInRecord r targetId with
    | some found => some found
    | none => findRecordById l targetId
def findInRecord : Record → String → Option Record
  | .mk i lb nt p run bt st tm col cr ch, targetId =>
    if i = targetId then some (.mk i lb nt p run bt st tm col cr ch)
    else findRecordById ch targetId
end

/-- The target branch of updateRecordStatus: flip isRunning; when starting,
record startTime = now and baseTime = time, keep children; when stopping,
credit floor((now - startTime) / 1000) into baseTime, set time to the new
baseTime, clear startTime, and force every descendant to isRunning = false. -/
def toggleTarget (now : Int) : Record → Record
  | .mk i lb nt p run bt st tm col cr ch =>
    if !run then
      .mk i lb nt p true (jsOr tm 0) (some now) tm col cr ch
    else
      let elapsedSeconds := (now - jsOrStart st now) / 1000
      let newBase := jsOr bt 0 + elapsedSeconds
      .mk i lb nt p false newBase none newBase col cr (updateChildrenStatus false ch)

/-- The sibling branch of updateRecordStatus: a record sharing the target level
is paused with isRunning = false, startTime cleared, time reset to baseTime,
and all descendants forced to isRunning = false.  No elapsed time is credited. -/
def pauseSibling : Record → Record
  | .mk i lb nt p _ bt _ _ col cr ch =>
    .mk i lb nt p false bt none (jsOr bt 0) col cr (updateChildrenStatus false ch)

/- updateRecordStatus of the source, split into the per-level map (updateLevel)
and the per-record case analysis (updateOneRecord).  hasTargetInLevel is the
boolean records.some(r => r.id === recordId) computed for the level being
mapped; the recursive call recomputes it for the child level, exactly as the
source recomputes it on entry to updateRecordStatus. -/
mutual
def updateLevel (now : Int) (recordId : String) (hasTargetInLevel : Bool) : RecordList → RecordList
  | .nil => .nil
  | .cons r l =>
    .cons (updateOneRecord now recordId hasTargetInLevel r)
      (updateLevel now recordId hasTargetInLevel l)
def updateOneRecord (now : Int) (recordId : String) (hasTargetInLevel : Bool) : Record → Record
  | .mk i lb nt p run bt st tm col cr ch =>
    if i = recordId then
      toggleTarget now (.mk i lb nt p run bt st tm col cr ch)
    else if hasTargetInLevel then
      pauseSibling (.mk i lb nt p run bt st tm col cr ch)
    else if 0 < RecordList.length ch then
      let updatedChildren :=
        updateLevel now recordId (RecordList.any (fun r => r.id == recordId) ch) ch
      match findRecordById updatedChildren recordId with
      | some targetChild =>
        .mk i lb nt p targetChild.isRunning (jsOr tm 0)
          (if targetChild.isRunning then some now else none) tm col cr updatedChildren
      | none => .mk i lb nt p run bt st tm col cr updatedChildren
    else .mk i lb nt p run bt st tm col cr ch
end

/-- updateRecordStatus of the source: map over the forest with
hasTargetInLevel computed for the top level. -/
def updateRecordStatus (now : Int) (recordId : String) (records : RecordList) : RecordList :=
  updateLevel now recordId (RecordList.any (fun r => r.id == recordId) records) records

/-- Caller-visible outcome of a toggle command.  The notFound alternative is
the failure report required by the specification; the source function
unconditionally updates the tree and saves updatedRecords[0], so only the ok
alternative is ever produced. -/
inductive ToggleOutcome : Type where
  | ok : RecordList → Option Record → ToggleOutcome
  | notFound : ToggleOutcome
  deriving DecidableEq

/-- toggleRecord of the source: compute the updated forest with
updateRecordStatus and persist its first root; no lookup failure is detected. -/
def toggleRecord (now : Int) (recordId : String) (records : RecordList) : ToggleOutcome :=
  let updatedRecords := updateRecordStatus now recordId records
  .ok updatedRecords (RecordList.headOpt updatedRecords)

/-- getUpdatedTime of the home screen (computeLiveTime of the specification),
with the call to Date.now() made explicit as the parameter now: if the record
is running and startTime is set (and nonzero, the JavaScript truthiness test),
return baseTime plus floor((now - startTime) / 1000); otherwise return
record.time or 0. -/
def getUpdatedTime (now : Int) (record : Record) : Int :=
  match record.startTime with
  | some s =>
    if record.isRunning && (s != 0) then record.baseTime + (now - s) / 1000
    else jsOr record.time 0
  | none => jsOr record.time 0

/-- Replace the derived display field time, leaving every other field alone. -/
def Record.setTime (t : Int) : Record → Record
  | .mk i lb nt p run bt st _ col cr ch => .mk i lb nt p run bt st t col cr ch

/- ------------------------------------------------------------------
Invariant 1 of the specification, as a decidable check: in every sibling
group (the root level and the children of every node), at most one record
has isRunning = true.
------------------------------------------------------------------ -/

def RecordList.runningCount : RecordList → Nat
  | .nil => 0
  | .cons r l => (if r.isRunning then 1 else 0) + RecordList.runningCount l

def atMostOneRunning (l : RecordList) : Bool := Nat.ble (RecordList.runningCount l) 1

mutual
def siblingMutexAll : RecordList → Bool
  | .nil => true
  | .cons r l => siblingMutexNode r && siblingMutexAll l
def siblingMutexNode : Record → Bool
  | .mk _ _ _ _ _ _ _ _ _ _ ch => atMostOneRunning ch && siblingMutexAll ch
end

/-- Invariant 1 for a whole forest: the root level and every nested sibling
group contain at most one running record. -/
def siblingMutex (l : RecordList) : Bool := atMostOneRunning l && siblingMutexAll l

/-- Concrete record builder for test fixtures. -/
def mkRec (i : String) (pid : Option String) (run : Bool) (bt : Int)
    (st : Option Int) (tm : Int) (ch : RecordList) : Record :=
  .mk i i none pid run bt st tm false 0 ch

/-- Fixture for claim C1: two stopped roots a and b, where b has one stopped
child c.  All sibling groups initially satisfy the mutual-exclusion invariant. -/
def demoForestC1 : RecordList :=
  .cons (mkRec "a" none false 0 none 0 .nil)
    (.cons (mkRec "b" none false 0 none 0
      (.cons (mkRec "c" (some "b") false 0 none 0 .nil) .nil)) .nil)

/-- C1: the claim that after every toggle command at most one direct sibling
is running is violated by the code: starting from a compliant forest, toggling
root a on and then toggling the nested child c on leaves both roots a and b
running, because starting a nested target marks its ancestors running without
pausing the siblings of those ancestors. -/
theorem toggle_sibling_mutex_violated :
    siblingMutex demoForestC1 = true ∧
    siblingMutex (updateRecordStatus 1000 "a" demoForestC1) = true ∧
    siblingMutex (updateRecordStatus 2000 "c" (updateRecordStatus 1000 "a" demoForestC1)) = false ∧
    (findRecordById (updateRecordStatus 2000 "c" (updateRecordStatus 1000 "a" demoForestC1))
        "a").map Record.isRunning = some true ∧
    (findRecordById (updateRecordStatus 2000 "c" (updateRecordStatus 1000 "a" demoForestC1))
        "b").map Record.isRunning = some true := by
  decide

/-- Fixture for claim C3: root s has been running since timestamp 1000 with a
child sc also running since 1000; its sibling b is stopped. -/
def demoForestC3 : RecordList :=
  .cons (mkRec "s" none true 0 (some 1000) 0
      (.cons (mkRec "sc" (some "s") true 0 (some 1000) 0 .nil) .nil))
    (.cons (mkRec "b" none false 0 none 0 .nil) .nil)

/-- C3: the claim that a force-stopped record receives the same stop
computation as an explicit stop is violated by the code: when sibling b is
started at timestamp 61000, the preempted sibling s (running since 1000) is
paused with baseTime left at 0 instead of being credited
floor((61000 - 1000) / 1000) = 60 seconds, and its running descendant sc is
stopped without clearing startTime and without crediting its elapsed time. -/
theorem force_stop_loses_accrued_time :
    (findRecordById (updateRecordStatus 61000 "b" demoForestC3) "s") =
      some (.mk "s" "s" none none false 0 none 0 false 0
        (.cons (.mk "sc" "sc" none (some "s") false 0 (some 1000) 0 false 0 .nil) .nil)) ∧
    (findRecordById (updateRecordStatus 61000 "b" demoForestC3) "sc").map Record.baseTime =
      some 0 ∧
    (findRecordById (updateRecordStatus 61000 "b" demoForestC3) "sc").map Record.startTime =
      some (some 1000) := by
  decide

/-- C5: getUpdatedTime (computeLiveTime of the specification) is a pure
function of the record and the clock value: it returns
baseTime + floor((now - startTime) / 1000) for a running record whose
startTime is set (to a nonzero wall-clock timestamp) and the banked time for
all other records; it is monotonically non-decreasing in now; feeding the
computed value back into the display field and recomputing gives the same
result; and its value on a record just stopped by a toggle equals that
record's new baseTime. -/
theorem computeLiveTime_props (r : Record) (now now1 now2 s : Int) :
    (r.isRunning = true → r.startTime = some s → s ≠ 0 →
      getUpdatedTime now r = r.baseTime + (now - s) / 1000) ∧
    (r.isRunning = false → r.time = r.baseTime → getUpdatedTime now r = r.baseTime) ∧
    (now1 ≤ now2 → getUpdatedTime now1 r ≤ getUpdatedTime now2 r) ∧
    (getUpdatedTime now (Record.setTime (getUpdatedTime now r) r) = getUpdatedTime now r) ∧
    (r.isRunning = true → getUpdatedTime now1 (toggleTarget now r) = (toggleTarget now r).baseTime) := by
  cases r with
  | mk i lb nt p run bt st tm col cr ch =>
    refine ⟨?_, ?_, ?_, ?_, ?_⟩
    · intro hrun hst hs
      simp [Record.isRunning] at hrun
      simp [Record.startTime] at hst
      subst hrun hst
      simp [getUpdatedTime, Record.startTime, Record.isRunning, Record.baseTime, hs]
    · intro hrun htm
      simp [Record.isRunning] at hrun
      simp [Record.time, Record.baseTime] at htm
      subst hrun
      cases st <;>
        simp [getUpdatedTime, Record.startTime, Record.isRunning, Record.time,
          Record.baseTime, htm]
    · intro hle
      cases st with
      | none => simp [getUpdatedTime, Record.startTime]
      | some s0 =>
        cases run with
        | false => simp [getUpdatedTime, Record.startTime, Record.isRunning]
        | true =>
          by_cases hs0 : s0 = 0
          · subst hs0
            simp [getUpdatedTime, Record.startTime, Record.isRunning]
          · simp [getUpdatedTime, Record.startTime, Record.isRunning, Record.baseTime, hs0]
            exact Int.ediv_le_ediv (by norm_num) (by omega)
    · cases st with
      | none => simp [getUpdatedTime, Record.startTime, Record.setTime, Record.time]
      | some s0 =>
        cases run with
        | false =>
          simp [getUpdatedTime, Record.startTime, Record.isRunning, Record.setTime, Record.time]
        | true =>
          by_cases hs0 : s0 = 0
          · subst hs0
            simp [getUpdatedTime, Record.startTime, Record.isRunning, Record.setTime, Record.time]
          · simp [getUpdatedTime, Record.startTime, Record.isRunning, Record.baseTime,
              Record.setTime, hs0]
    · intro hrun
      simp [Record.isRunning] at hrun
      subst hrun
      simp [toggleTarget, getUpdatedTime, Record.startTime, Record.baseTime, Record.time]

/-- Concrete instance of computeLiveTime_props: a record running since
timestamp 1000 with 3 banked seconds reads 3 + floor((5900 - 1000)/1000) = 7
at clock 5900, and a stopped record with time = baseTime = 3 reads 3. -/
theorem computeLiveTime_props_witness :
    getUpdatedTime 5900 (mkRec "w" none true 3 (some 1000) 3 .nil) = 3 + (5900 - 1000) / 1000 ∧
    getUpdatedTime 5900 (mkRec "v" none false 3 none 3 .nil) = 3 ∧
    getUpdatedTime 2000 (mkRec "w" none true 3 (some 1000) 3 .nil) ≤
      getUpdatedTime 5900 (mkRec "w" none true 3 (some 1000) 3 .nil) ∧
    getUpdatedTime 5900 (Record.setTime
        (getUpdatedTime 5900 (mkRec "w" none true 3 (some 1000) 3 .nil))
        (mkRec "w" none true 3 (some 1000) 3 .nil)) =
      getUpdatedTime 5900 (mkRec "w" none true 3 (some 1000) 3 .nil) ∧
    getUpdatedTime 9999 (toggleTarget 5900 (mkRec "w" none true 3 (some 1000) 3 .nil)) =
      (toggleTarget 5900 (mkRec "w" none true 3 (some 1000) 3 .nil)).baseTime := by
  have h1 := computeLiveTime_props (mkRec "w" none true 3 (some 1000) 3 .nil) 5900 2000 5900 1000
  have h2 := computeLiveTime_props (mkRec "v" none false 3 none 3 .nil) 5900 2000 5900 1000
  have h3 := computeLiveTime_props (mkRec "w" none true 3 (some 1000) 3 .nil) 5900 9999 0 1000
  exact ⟨h1.1 (by decide) (by decide) (by decide), h2.2.1 (by decide) (by decide),
    h1.2.2.1 (by decide), h1.2.2.2.1, h3.2.2.2.2 (by decide)⟩

/- ------------------------------------------------------------------
Structure-preservation lemmas: every branch of the toggle transformation
rebuilds each node with its identifier unchanged and its children mapped
one-to-one, so the depth-first identifier list of the forest is invariant.
------------------------------------------------------------------ -/

mutual
theorem updateChildrenStatus_allIds (b : Bool) :
    ∀ (l : RecordList), RecordList.allIds (updateChildrenStatus b l) = RecordList.allIds l
  | .nil => by simp [updateChildrenStatus]
  | .cons r l => by
    simp [updateChildrenStatus, RecordList.allIds, updateChildStatus_subIds b r,
      updateChildrenStatus_allIds b l]
theorem updateChildStatus_subIds (b : Bool) :
    ∀ (r : Record), Record.subIds (updateChildStatus b r) = Record.subIds r
  | .mk i lb nt p run bt st tm col cr ch => by
    simp [updateChildStatus, Record.subIds, updateChildrenStatus_allIds b ch]
end

theorem toggleTarget_subIds (now : Int) :
    ∀ (r : Record), Record.subIds (toggleTarget now r) = Record.subIds r
  | .mk i lb nt p run bt st tm col cr ch => by
    cases run <;> simp [toggleTarget, Record.subIds, updateChildrenStatus_allIds]

theorem toggleTarget_id (now : Int) :
    ∀ (r : Record), Record.id (toggleTarget now r) = Record.id r
  | .mk i lb nt p run bt st tm col cr ch => by
    cases run <;> simp [toggleTarget, Record.id]

theorem pauseSibling_subIds :
    ∀ (r : Record), Record.subIds (pauseSibling r) = Record.subIds r
  | .mk i lb nt p run bt st tm col cr ch => by
    simp [pauseSibling, Record.subIds, updateChildrenStatus_allIds]

mutual
theorem updateLevel_allIds (now : Int) (tid : String) :
    ∀ (h : Bool) (l : RecordList),
      RecordList.allIds (updateLevel now tid h l) = RecordList.allIds l
  | _, .nil => by simp [updateLevel]
  | h, .cons r l => by
    simp [updateLevel, RecordList.allIds, updateOneRecord_subIds now tid h r,
      updateLevel_allIds now tid h l]
theorem updateOneRecord_subIds (now : Int) (tid : String) :
    ∀ (h : Bool) (r : Record), Record.subIds (updateOneRecord now tid h r) = Record.subIds r
  | h, .mk i lb nt p run bt st tm col cr ch => by
    unfold updateOneRecord
    split
    · exact toggleTarget_subIds now _
    · split
      · exact pauseSibling_subIds _
      · split
        · dsimp only
          cases hfind : findRecordById
              (updateLevel now tid (RecordList.any (fun r => r.id == tid) ch) ch) tid with
          | some targetChild =>
            simp [hfind, Record.subIds,
              updateLevel_allIds now tid (RecordList.any (fun r => r.id == tid) ch) ch]
          | none =>
            simp [hfind, Record.subIds,
              updateLevel_allIds now tid (RecordList.any (fun r => r.id == tid) ch) ch]
        · rfl
end

theorem id_mem_subIds : ∀ (r : Record), Record.id r ∈ Record.subIds r
  | .mk i lb nt p run bt st tm col cr ch => by simp [Record.id, Record.subIds]

/-- A successful top-level identifier test implies membership in the forest identifier list. -/
theorem any_id_mem (tid : String) :
    ∀ (l : RecordList), RecordList.any (fun r => r.id == tid) l = true →
      tid ∈ RecordList.allIds l
  | .nil, hany => by simp [RecordList.any] at hany
  | .cons r l, hany => by
    simp [RecordList.any] at hany
    rcases hany with hid | htail
    · have := id_mem_subIds r
      rw [hid] at this
      simp [RecordList.allIds, List.mem_append]
      exact Or.inl this
    · simp [RecordList.allIds, List.mem_append]
      exact Or.inr (any_id_mem tid l htail)

/- ------------------------------------------------------------------
Search lemmas: findRecordById succeeds exactly on identifiers present in
the forest, and a found record carries the searched identifier.
------------------------------------------------------------------ -/

mutual
theorem findRecordById_eq_none (tid : String) :
    ∀ (l : RecordList), findRecordById l tid = none ↔ tid ∉ RecordList.allIds l
  | .nil => by simp [findRecordById, RecordList.allIds]
  | .cons r l => by
    cases hfr : findInRecord r tid with
    | some f =>
      have hmem := (findInRecord_eq_none tid r)
      rw [hfr] at hmem
      simp at hmem
      simp [findRecordById, hfr, RecordList.allIds, List.mem_append, hmem]
    | none =>
      have hmem := (findInRecord_eq_none tid r).mp hfr
      simp [findRecordById, hfr, RecordList.allIds, List.mem_append, hmem,
        findRecordById_eq_none tid l]
theorem findInRecord_eq_none (tid : String) :
    ∀ (r : Record), findInRecord r tid = none ↔ tid ∉ Record.subIds r
  | .mk i lb nt p run bt st tm col cr ch => by
    by_cases hi : i = tid
    · simp [findInRecord, hi, Record.subIds]
    · have hne : tid ≠ i := fun hc => hi hc.symm
      simp [findInRecord, hi, Record.subIds, findRecordById_eq_none tid ch, hne]
end

mutual
theorem findRecordById_id (tid : String) :
    ∀ (l : RecordList) (f : Record), findRecordById l tid = some f → Record.id f = tid
  | .nil, f => by
    intro hsome
    simp [findRecordById] at hsome
  | .cons r l, f => by
    cases hfr : findInRecord r tid with
    | some g =>
      intro hsome
      simp [findRecordById, hfr] at hsome
      subst hsome
      exact findInRecord_id tid r g hfr
    | none =>
      intro hsome
      simp [findRecordById, hfr] at hsome
      exact findRecordById_id tid l f hsome
theorem findInRecord_id (tid : String) :
    ∀ (r : Record) (f : Record), findInRecord r tid = some f → Record.id f = tid
  | .mk i lb nt p run bt st tm col cr ch, f => by
    by_cases hi : i = tid
    · intro hsome
      simp [findInRecord, hi] at hsome
      subst hsome
      simp [Record.id]
    · intro hsome
      simp [findInRecord, hi] at hsome
      exact findRecordById_id tid ch f hsome
end

/- ------------------------------------------------------------------
The no-op property: toggling an identifier that occurs nowhere in the
forest rebuilds every node unchanged.
------------------------------------------------------------------ -/

mutual
theorem updateLevel_noop (now : Int) (tid : String) :
    ∀ (l : RecordList), tid ∉ RecordList.allIds l → updateLevel now tid false l = l
  | .nil, _ => by simp [updateLevel]
  | .cons r l, hmem => by
    simp only [RecordList.allIds, List.mem_append] at hmem
    push_neg at hmem
    simp [updateLevel, updateOneRecord_noop now tid r hmem.1, updateLevel_noop now tid l hmem.2]
theorem updateOneRecord_noop (now : Int) (tid : String) :
    ∀ (r : Record), tid ∉ Record.subIds r → updateOneRecord now tid false r = r
  | .mk i lb nt p run bt st tm col cr ch, hmem => by
    simp only [Record.subIds, List.mem_cons] at hmem
    push_neg at hmem
    have hi : i ≠ tid := fun hc => hmem.1 hc.symm
    have hany : RecordList.any (fun r => r.id == tid) ch = false := by
      cases hany : RecordList.any (fun r => r.id == tid) ch with
      | false => rfl
      | true => exact absurd (any_id_mem tid ch hany) hmem.2
    have hch : updateLevel now tid false ch = ch := updateLevel_noop now tid ch hmem.2
    have hfind : findRecordById ch tid = none := (findRecordById_eq_none tid ch).mpr hmem.2
    unfold updateOneRecord
    rw [if_neg hi]
    simp only [Bool.false_eq_true, if_false, hany, hch, hfind]
    split
    · rfl
    · rfl
end

/-- C6 counterexample: toggling an identifier absent from the forest does not
report a NotFound failure; the source function unconditionally produces the
success outcome (and re-saves the first root), so the claimed reported
failure never occurs. -/
theorem toggle_missing_no_failure_report :
    toggleRecord 5 "zz" demoForestC1 ≠ ToggleOutcome.notFound := by
  decide

/-- C6 amended: toggling an identifier not present in the tree leaves every
record unchanged, creates no synthetic record and does not crash, but the
failure is silent: the caller receives the ordinary success outcome carrying
the unchanged forest (whose unchanged first root is even re-saved), with no
NotFound report. -/
theorem toggle_missing_silent_noop (now : Int) (tid : String) (l : RecordList)
    (hmem : tid ∉ RecordList.allIds l) :
    updateRecordStatus now tid l = l ∧
    toggleRecord now tid l = ToggleOutcome.ok l (RecordList.headOpt l) := by
  have hany : RecordList.any (fun r => r.id == tid) l = false := by
    cases hany : RecordList.any (fun r => r.id == tid) l with
    | false => rfl
    | true => exact absurd (any_id_mem tid l hany) hmem
  have h1 : updateRecordStatus now tid l = l := by
    unfold updateRecordStatus
    rw [hany]
    exact updateLevel_noop now tid l hmem
  exact ⟨h1, by simp [toggleRecord, h1]⟩

/-- Concrete instance of toggle_missing_silent_noop at an identifier absent
from the demonstration forest. -/
theorem toggle_missing_silent_noop_witness :
    updateRecordStatus 5 "zz" demoForestC1 = demoForestC1 ∧
    toggleRecord 5 "zz" demoForestC1 =
      ToggleOutcome.ok demoForestC1 (RecordList.headOpt demoForestC1) :=
  toggle_missing_silent_noop 5 "zz" demoForestC1 (by decide)

/- ------------------------------------------------------------------
Membership helpers relating depth-first node lists, identifier lists and
search results.
------------------------------------------------------------------ -/

theorem findInRecord_self (tid : String) :
    ∀ (r : Record), Record.id r = tid → findInRecord r tid = some r
  | .mk i lb nt p run bt st tm col cr ch, hid => by
    simp [Record.id] at hid
    simp [findInRecord, hid]

theorem findInRecord_mem (tid : String) (r : Record) (f : Record)
    (hf : findInRecord r tid = some f) : tid ∈ Record.subIds r := by
  by_contra hmem
  rw [(findInRecord_eq_none tid r).mpr hmem] at hf
  exact Option.noConfusion hf

theorem findRecordById_mem (tid : String) (l : RecordList) (f : Record)
    (hf : findRecordById l tid = some f) : tid ∈ RecordList.allIds l := by
  by_contra hmem
  rw [(findRecordById_eq_none tid l).mpr hmem] at hf
  exact Option.noConfusion hf

theorem mem_children_subIds (x : String) :
    ∀ (a : Record), x ∈ RecordList.allIds (Record.children a) → x ∈ Record.subIds a
  | .mk i lb nt p run bt st tm col cr ch, hx => by
    simp [Record.children] at hx
    simp [Record.subIds, hx]

mutual
theorem mem_allNodesL_subIds (x : String) :
    ∀ (l : RecordList) (a : Record), a ∈ RecordList.allNodesL l →
      x ∈ Record.subIds a → x ∈ RecordList.allIds l
  | .nil, a => by
    intro hmem
    simp [RecordList.allNodesL] at hmem
  | .cons r l, a => by
    intro hmem hx
    simp only [RecordList.allNodesL, List.mem_append] at hmem
    simp only [RecordList.allIds, List.mem_append]
    rcases hmem with hmem | hmem
    · exact Or.inl (mem_allNodes_subIds x r a hmem hx)
    · exact Or.inr (mem_allNodesL_subIds x l a hmem hx)
theorem mem_allNodes_subIds (x : String) :
    ∀ (r : Record) (a : Record), a ∈ Record.allNodes r →
      x ∈ Record.subIds a → x ∈ Record.subIds r
  | .mk i lb nt p run bt st tm col cr ch, a => by
    intro hmem hx
    simp only [Record.allNodes, List.mem_cons] at hmem
    rcases hmem with hmem | hmem
    · subst hmem; exact hx
    · simp only [Record.subIds, List.mem_cons]
      exact Or.inr (mem_allNodesL_subIds x ch a hmem hx)
end

theorem mem_allNodesL_id (l : RecordList) (a : Record) (hmem : a ∈ RecordList.allNodesL l) :
    Record.id a ∈ RecordList.allIds l :=
  mem_allNodesL_subIds (Record.id a) l a hmem (id_mem_subIds a)

/- ------------------------------------------------------------------
Main search lemma for the toggle transformation: in a forest with globally
unique identifiers, the record found at the target identifier after
updateRecordStatus is exactly the toggleTarget image of the record found
there before.
------------------------------------------------------------------ -/

mutual
theorem updateLevel_find_target (now : Int) (tid : String) :
    ∀ (l : RecordList), (RecordList.allIds l).Nodup →
      ∀ (t : Record), findRecordById l tid = some t →
        findRecordById (updateLevel now tid (RecordList.any (fun r => r.id == tid) l) l) tid =
          some (toggleTarget now t)
  | .nil, _, t, hfind => by simp [findRecordById] at hfind
  | .cons r l, hnd, t, hfind => by
    have hnd3 : (Record.subIds r).Nodup ∧ (RecordList.allIds l).Nodup ∧
        (Record.subIds r).Disjoint (RecordList.allIds l) := by
      rw [RecordList.allIds, List.nodup_append] at hnd
      exact hnd
    by_cases hid : Record.id r = tid
    · have hfr : findInRecord r tid = some r := findInRecord_self tid r hid
      have ht : t = r := by
        simp [findRecordById, hfr] at hfind
        exact hfind.symm
      subst ht
      have hany : RecordList.any (fun x => x.id == tid) (RecordList.cons t l) = true := by
        simp [RecordList.any, hid]
      rw [hany]
      have hhead : updateOneRecord now tid true t = toggleTarget now t := by
        cases t with
        | mk i lb nt p run bt st tm col cr ch =>
          simp only [Record.id] at hid
          unfold updateOneRecord
          rw [if_pos hid]
      have hfr2 : findInRecord (toggleTarget now t) tid = some (toggleTarget now t) :=
        findInRecord_self tid _ (by rw [toggleTarget_id]; exact hid)
      simp [updateLevel, findRecordById, hhead, hfr2]
    · cases hfr : findInRecord r tid with
      | some f =>
        have ht : t = f := by
          simp [findRecordById, hfr] at hfind
          exact hfind.symm
        subst ht
        have htidr : tid ∈ Record.subIds r := findInRecord_mem tid r t hfr
        have hanyl : RecordList.any (fun x => x.id == tid) l = false := by
          cases hal : RecordList.any (fun x => x.id == tid) l with
          | false => rfl
          | true => exact absurd (any_id_mem tid l hal) (fun hm => hnd3.2.2 htidr hm)
        have hany : RecordList.any (fun x => x.id == tid) (RecordList.cons r l) = false := by
          simp [RecordList.any, hanyl]
          exact hid
        rw [hany]
        have hhead := updateOneRecord_find_target now tid r hnd3.1 t hfr
        simp [updateLevel, findRecordById, hhead]
      | none =>
        have hfl : findRecordById l tid = some t := by
          simp [findRecordById, hfr] at hfind
          exact hfind
        have htidnr : tid ∉ Record.subIds r := (findInRecord_eq_none tid r).mp hfr
        have hidf : (Record.id r == tid) = false := by
          simp
          exact fun hc => htidnr (hc ▸ id_mem_subIds r)
        have hany : RecordList.any (fun x => x.id == tid) (RecordList.cons r l) =
            RecordList.any (fun x => x.id == tid) l := by
          simp [RecordList.any, hidf]
        rw [hany]
        have hnone : findInRecord
            (updateOneRecord now tid (RecordList.any (fun x => x.id == tid) l) r) tid = none := by
          apply (findInRecord_eq_none tid _).mpr
          rw [updateOneRecord_subIds]
          exact htidnr
        have htail := updateLevel_find_target now tid l hnd3.2.1 t hfl
        simp [updateLevel, findRecordById, hnone, htail]
theorem updateOneRecord_find_target (now : Int) (tid : String) :
    ∀ (r : Record), (Record.subIds r).Nodup →
      ∀ (t : Record), findInRecord r tid = some t →
        findInRecord (updateOneRecord now tid false r) tid = some (toggleTarget now t)
  | .mk i lb nt p run bt st tm col cr ch, hnd, t, hfind => by
    by_cases hid : i = tid
    · have ht : t = Record.mk i lb nt p run bt st tm col cr ch := by
        simp only [findInRecord] at hfind
        rw [if_pos hid] at hfind
        exact (Option.some.inj hfind).symm
      subst ht
      have hone : updateOneRecord now tid false (Record.mk i lb nt p run bt st tm col cr ch) =
          toggleTarget now (Record.mk i lb nt p run bt st tm col cr ch) := by
        unfold updateOneRecord
        rw [if_pos hid]
      rw [hone]
      refine findInRecord_self tid _ ?_
      rw [toggleTarget_id]
      simp [Record.id, hid]
    · have hfch : findRecordById ch tid = some t := by
        simp [findInRecord, hid] at hfind
        exact hfind
      have hlen : 0 < RecordList.length ch := by
        cases ch with
        | nil => simp [findRecordById] at hfch
        | cons a b => simp [RecordList.length]
      have hndch : (RecordList.allIds ch).Nodup := by
        rw [Record.subIds] at hnd
        exact hnd.of_cons
      have hch := updateLevel_find_target now tid ch hndch t hfch
      unfold updateOneRecord
      rw [if_neg hid]
      simp only [Bool.false_eq_true, if_false]
      rw [if_pos hlen]
      simp [findInRecord, hid, hch]
end

/-- The toggled target of updateRecordStatus: the record found at the target
identifier afterwards is the toggleTarget image of the record found before. -/
theorem updateRecordStatus_find_target (now : Int) (tid : String) (l : RecordList)
    (hnd : (RecordList.allIds l).Nodup) (t : Record) (hfind : findRecordById l tid = some t) :
    findRecordById (updateRecordStatus now tid l) tid = some (toggleTarget now t) := by
  unfold updateRecordStatus
  exact updateLevel_find_target now tid l hnd t hfind

theorem subIds_nodup_head :
    ∀ (r : Record), (Record.subIds r).Nodup →
      Record.id r ∉ RecordList.allIds (Record.children r)
  | .mk i lb nt p run bt st tm col cr ch, hnd => by
    rw [Record.subIds, List.nodup_cons] at hnd
    simpa [Record.id, Record.children] using hnd.1

theorem mem_allNodes_cases :
    ∀ (r : Record) (a : Record), a ∈ Record.allNodes r →
      a = r ∨ a ∈ RecordList.allNodesL (Record.children r)
  | .mk i lb nt p run bt st tm col cr ch, a, hmem => by
    simpa [Record.allNodes, Record.children] using hmem

/-- Starting a stopped record: the target branch sets isRunning, records the
start timestamp, banks the displayed time as the new baseTime, and leaves the
children (all descendants) untouched. -/
theorem toggleTarget_start_fields (now : Int) :
    ∀ (t : Record), Record.isRunning t = false →
      Record.isRunning (toggleTarget now t) = true ∧
      Record.startTime (toggleTarget now t) = some now ∧
      Record.baseTime (toggleTarget now t) = Record.time t ∧
      Record.children (toggleTarget now t) = Record.children t
  | .mk i lb nt p run bt st tm col cr ch, hstop => by
    simp [Record.isRunning] at hstop
    subst hstop
    simp [toggleTarget, Record.isRunning, Record.startTime, Record.baseTime,
      Record.time, Record.children]

/- ------------------------------------------------------------------
Ancestor lemma: when a stopped target somewhere in the forest is started,
every strict ancestor of the target (every node whose children subtree
contains the target identifier) is rebuilt running, with startTime = now
and baseTime equal to its own previously displayed time.
------------------------------------------------------------------ -/

mutual
theorem updateLevel_ancestors (now : Int) (tid : String) :
    ∀ (l : RecordList), (RecordList.allIds l).Nodup →
      ∀ (t : Record), findRecordById l tid = some t → Record.isRunning t = false →
      ∀ (a : Record), a ∈ RecordList.allNodesL l →
        tid ∈ RecordList.allIds (Record.children a) →
        ∃ a2, findRecordById (updateLevel now tid (RecordList.any (fun x => x.id == tid) l) l)
            (Record.id a) = some a2 ∧
          Record.isRunning a2 = true ∧ Record.startTime a2 = some now ∧
          Record.baseTime a2 = Record.time a
  | .nil, _, t, hfind, _, a, hmem, _ => by simp [findRecordById] at hfind
  | .cons r l, hnd, t, hfind, hstop, a, hmem, hanc => by
    have hnd3 : (Record.subIds r).Nodup ∧ (RecordList.allIds l).Nodup ∧
        (Record.subIds r).Disjoint (RecordList.allIds l) := by
      rw [RecordList.allIds, List.nodup_append] at hnd
      exact hnd
    have htida : tid ∈ Record.subIds a := mem_children_subIds tid a hanc
    simp only [RecordList.allNodesL, List.mem_append] at hmem
    by_cases hid : Record.id r = tid
    · exfalso
      have htidr : tid ∈ Record.subIds r := by
        rw [← hid]
        exact id_mem_subIds r
      rcases hmem with hmem | hmem
      · rcases mem_allNodes_cases r a hmem with rfl | hmem2
        · refine subIds_nodup_head a hnd3.1 ?_
          rw [hid]
          exact hanc
        · refine subIds_nodup_head r hnd3.1 ?_
          rw [hid]
          exact mem_allNodesL_subIds tid (Record.children r) a hmem2 htida
      · exact hnd3.2.2 htidr (mem_allNodesL_subIds tid l a hmem htida)
    · cases hfr : findInRecord r tid with
      | some f =>
        have ht : t = f := by
          simp [findRecordById, hfr] at hfind
          exact hfind.symm
        subst ht
        have htidr : tid ∈ Record.subIds r := findInRecord_mem tid r t hfr
        have hanyl : RecordList.any (fun x => x.id == tid) l = false := by
          cases hal : RecordList.any (fun x => x.id == tid) l with
          | false => rfl
          | true => exact absurd (any_id_mem tid l hal) (fun hm => hnd3.2.2 htidr hm)
        have hany : RecordList.any (fun x => x.id == tid) (RecordList.cons r l) = false := by
          simp [RecordList.any, hanyl]
          exact hid
        rw [hany]
        rcases hmem with hmem | hmem
        · obtain ⟨a2, ha2, hf⟩ :=
            updateOneRecord_ancestors now tid r hnd3.1 t hfr hstop a hmem hanc
          exact ⟨a2, by simp [updateLevel, findRecordById, ha2], hf⟩
        · exact absurd (mem_allNodesL_subIds tid l a hmem htida)
            (fun hm => hnd3.2.2 htidr hm)
      | none =>
        have hfl : findRecordById l tid = some t := by
          simp [findRecordById, hfr] at hfind
          exact hfind
        have htidnr : tid ∉ Record.subIds r := (findInRecord_eq_none tid r).mp hfr
        have hidf : (Record.id r == tid) = false := by
          simp
          exact fun hc => htidnr (hc ▸ id_mem_subIds r)
        have hany : RecordList.any (fun x => x.id == tid) (RecordList.cons r l) =
            RecordList.any (fun x => x.id == tid) l := by
          simp [RecordList.any, hidf]
        rw [hany]
        rcases hmem with hmem | hmem
        · exact absurd (mem_allNodes_subIds tid r a hmem htida) htidnr
        · have haidl : Record.id a ∈ RecordList.allIds l := mem_allNodesL_id l a hmem
          have hnone : findInRecord
              (updateOneRecord now tid (RecordList.any (fun x => x.id == tid) l) r)
              (Record.id a) = none := by
            apply (findInRecord_eq_none _ _).mpr
            rw [updateOneRecord_subIds]
            exact fun hc => hnd3.2.2 hc haidl
          obtain ⟨a2, ha2, hf⟩ :=
            updateLevel_ancestors now tid l hnd3.2.1 t hfl hstop a hmem hanc
          exact ⟨a2, by simp [updateLevel, findRecordById, hnone, ha2], hf⟩
theorem updateOneRecord_ancestors (now : Int) (tid : String) :
    ∀ (r : Record), (Record.subIds r).Nodup →
      ∀ (t : Record), findInRecord r tid = some t → Record.isRunning t = false →
      ∀ (a : Record), a ∈ Record.allNodes r →
        tid ∈ RecordList.allIds (Record.children a) →
        ∃ a2, findInRecord (updateOneRecord now tid false r) (Record.id a) = some a2 ∧
          Record.isRunning a2 = true ∧ Record.startTime a2 = some now ∧
          Record.baseTime a2 = Record.time a
  | .mk i lb nt p run bt st tm col cr ch, hnd, t, hfind, hstop, a, hmem, hanc => by
    have htida : tid ∈ Record.subIds a := mem_children_subIds tid a hanc
    have hndch : (RecordList.allIds ch).Nodup := by
      rw [Record.subIds] at hnd
      exact hnd.of_cons
    have hheadch : i ∉ RecordList.allIds ch := by
      rw [Record.subIds, List.nodup_cons] at hnd
      exact hnd.1
    simp only [Record.allNodes, List.mem_cons] at hmem
    by_cases hid : i = tid
    · exfalso
      rcases hmem with hmem | hmem
      · subst hmem
        rw [Record.children] at hanc
        refine hheadch ?_
        rw [hid]
        exact hanc
      · refine hheadch ?_
        rw [hid]
        exact mem_allNodesL_subIds tid ch a hmem htida
    · have hfch : findRecordById ch tid = some t := by
        simp [findInRecord, hid] at hfind
        exact hfind
      have hlen : 0 < RecordList.length ch := by
        cases ch with
        | nil => simp [findRecordById] at hfch
        | cons x y => simp [RecordList.length]
      have hch := updateLevel_find_target now tid ch hndch t hfch
      have hrunT : Record.isRunning (toggleTarget now t) = true :=
        (toggleTarget_start_fields now t hstop).1
      unfold updateOneRecord
      rw [if_neg hid]
      simp only [Bool.false_eq_true, if_false]
      rw [if_pos hlen]
      rcases hmem with hmem | hmem
      · subst hmem
        refine ⟨Record.mk i lb nt p true (jsOr tm 0) (some now) tm col cr
            (updateLevel now tid (RecordList.any (fun x => x.id == tid) ch) ch), ?_, ?_, ?_, ?_⟩
        · rw [hch]
          simp [hrunT, findInRecord, Record.id]
        · simp [Record.isRunning]
        · simp [Record.startTime]
        · simp [Record.baseTime, Record.time]
      · have haidne : i ≠ Record.id a := by
          intro hc
          exact hheadch (hc ▸ mem_allNodesL_id ch a hmem)
        obtain ⟨a2, ha2, hf⟩ :=
          updateLevel_ancestors now tid ch hndch t hfch hstop a hmem hanc
        refine ⟨a2, ?_, hf⟩
        simp [hch, findInRecord, haidne, ha2]
end

/-- Stopping a running record via the target branch of updateRecordStatus:
fields of the resulting record. -/
theorem toggleTarget_stop_fields (now s : Int) :
    ∀ (t : Record), Record.isRunning t = true → Record.startTime t = some s → s ≠ 0 →
      Record.baseTime (toggleTarget now t) = Record.baseTime t + (now - s) / 1000 ∧
      Record.time (toggleTarget now t) = Record.baseTime (toggleTarget now t) ∧
      Record.startTime (toggleTarget now t) = none ∧
      Record.isRunning (toggleTarget now t) = false
  | .mk i lb nt p run bt st tm col cr ch, hrun, hst, hs => by
    simp [Record.isRunning] at hrun
    simp [Record.startTime] at hst
    subst hrun
    subst hst
    have hjs : jsOrStart (some s) now = s := by simp [jsOrStart, jsOr, hs]
    simp [toggleTarget, hjs, Record.baseTime, Record.time, Record.startTime, Record.isRunning]

/-- C2: toggling a running target (whose startTime is a set, nonzero
wall-clock timestamp) in a forest with unique identifiers stops it: the
record subsequently found at the target identifier has exactly
floor((now - startTime) / 1000) seconds added to its baseTime, its time equal
to the new baseTime, its startTime cleared and isRunning false. -/
theorem toggle_stop_credits_elapsed (now : Int) (tid : String) (l : RecordList)
    (t : Record) (s : Int) (hnd : (RecordList.allIds l).Nodup)
    (hfind : findRecordById l tid = some t) (hrun : Record.isRunning t = true)
    (hst : Record.startTime t = some s) (hs : s ≠ 0) :
    ∃ t2, findRecordById (updateRecordStatus now tid l) tid = some t2 ∧
      Record.baseTime t2 = Record.baseTime t + (now - s) / 1000 ∧
      Record.time t2 = Record.baseTime t2 ∧
      Record.startTime t2 = none ∧
      Record.isRunning t2 = false := by
  obtain ⟨h1, h2, h3, h4⟩ := toggleTarget_stop_fields now s t hrun hst hs
  exact ⟨toggleTarget now t, updateRecordStatus_find_target now tid l hnd t hfind, h1, h2, h3, h4⟩

/-- Concrete instance of toggle_stop_credits_elapsed: a single root running
since timestamp 1000 with 3 banked seconds, toggled off at 61000, is credited
exactly 60 seconds. -/
theorem toggle_stop_credits_elapsed_witness :
    ∃ t2, findRecordById (updateRecordStatus 61000 "a"
        (RecordList.cons (mkRec "a" none true 3 (some 1000) 8 RecordList.nil) RecordList.nil))
        "a" = some t2 ∧
      Record.baseTime t2 =
        Record.baseTime (mkRec "a" none true 3 (some 1000) 8 RecordList.nil) +
          (61000 - 1000) / 1000 ∧
      Record.time t2 = Record.baseTime t2 ∧
      Record.startTime t2 = none ∧
      Record.isRunning t2 = false :=
  toggle_stop_credits_elapsed 61000 "a"
    (RecordList.cons (mkRec "a" none true 3 (some 1000) 8 RecordList.nil) RecordList.nil)
    (mkRec "a" none true 3 (some 1000) 8 RecordList.nil) 1000
    (by decide) (by decide) (by decide) (by decide) (by decide)

/-- C4: toggling a stopped target in a forest with unique identifiers starts
it with startTime = now, baseTime equal to its currently displayed time, and
its children (all descendants) untouched; and every strict ancestor of the
target (every node whose children subtree contains the target identifier) is
marked running with a fresh interval: startTime = now and baseTime equal to
that ancestor's own displayed time. -/
theorem toggle_start_semantics (now : Int) (tid : String) (l : RecordList)
    (t : Record) (hnd : (RecordList.allIds l).Nodup)
    (hfind : findRecordById l tid = some t) (hstop : Record.isRunning t = false) :
    (∃ t2, findRecordById (updateRecordStatus now tid l) tid = some t2 ∧
      Record.isRunning t2 = true ∧ Record.startTime t2 = some now ∧
      Record.baseTime t2 = Record.time t ∧ Record.children t2 = Record.children t) ∧
    (∀ a, a ∈ RecordList.allNodesL l → tid ∈ RecordList.allIds (Record.children a) →
      ∃ a2, findRecordById (updateRecordStatus now tid l) (Record.id a) = some a2 ∧
        Record.isRunning a2 = true ∧ Record.startTime a2 = some now ∧
        Record.baseTime a2 = Record.time a) := by
  constructor
  · obtain ⟨h1, h2, h3, h4⟩ := toggleTarget_start_fields now t hstop
    exact ⟨toggleTarget now t, updateRecordStatus_find_target now tid l hnd t hfind,
      h1, h2, h3, h4⟩
  · intro a hmem hanc
    unfold updateRecordStatus
    exact updateLevel_ancestors now tid l hnd t hfind hstop a hmem hanc

/-- Fixture for the toggle_start_semantics witness: a root r with stopped
children a and b, where b has the stopped child c. -/
def demoForestC4 : RecordList :=
  RecordList.cons (mkRec "r" none false 2 none 2
    (RecordList.cons (mkRec "a" (some "r") false 0 none 0 RecordList.nil)
      (RecordList.cons (mkRec "b" (some "r") false 5 none 5
        (RecordList.cons (mkRec "c" (some "b") false 0 none 0 RecordList.nil) RecordList.nil))
        RecordList.nil))) RecordList.nil

/-- Concrete instance of toggle_start_semantics: toggling the nested child c
at timestamp 7000 starts c and marks its strict ancestors b and r running. -/
theorem toggle_start_semantics_witness :
    (∃ t2, findRecordById (updateRecordStatus 7000 "c" demoForestC4) "c" = some t2 ∧
      Record.isRunning t2 = true ∧ Record.startTime t2 = some 7000 ∧
      Record.baseTime t2 = Record.time (mkRec "c" (some "b") false 0 none 0 RecordList.nil) ∧
      Record.children t2 = Record.children (mkRec "c" (some "b") false 0 none 0 RecordList.nil)) ∧
    (∀ a, a ∈ RecordList.allNodesL demoForestC4 →
      "c" ∈ RecordList.allIds (Record.children a) →
      ∃ a2, findRecordById (updateRecordStatus 7000 "c" demoForestC4) (Record.id a) = some a2 ∧
        Record.isRunning a2 = true ∧ Record.startTime a2 = some 7000 ∧
        Record.baseTime a2 = Record.time a) :=
  toggle_start_semantics 7000 "c" demoForestC4
    (mkRec "c" (some "b") false 0 none 0 RecordList.nil)
    (by decide) (by decide) (by decide)

/- ------------------------------------------------------------------
Persistence layer: JsonStorageProvider over AsyncStorage.

AsyncStorage is a flat string-keyed store.  The provider uses two disjoint
key families: one index entry under the fixed key time_records_index, and
one entry per record under the key time_record_ concatenated with the
record identifier (the two families never collide: see
recordKey_ne_indexKey below).  The store is therefore embedded with the
two families split: an association list of per-record entries keyed by
identifier, and an optional index value.  Record values are stored in
their serialized form: the same fields with createdAt replaced by its
string encoding, exactly what survives JSON.stringify with the createdAt
replacer and JSON.parse with the createdAt reviver.  JSON round-trips
numbers and strings exactly; the Date.prototype.toISOString encoding of an
epoch-millisecond instant and its inverse new Date(string) are modelled by
an explicit injective decimal codec with a proved left inverse.
------------------------------------------------------------------ -/

def natToRevDigits : Nat → List Nat
  | 0 => []
  | n + 1 => ((n + 1) % 10) :: natToRevDigits ((n + 1) / 10)
decreasing_by exact Nat.div_lt_self (Nat.succ_pos n) (by norm_num)

def revDigitsToNat : List Nat → Nat
  | [] => 0
  | d :: ds => d + 10 * revDigitsToNat ds

theorem revDigitsToNat_natToRevDigits (n : Nat) :
    revDigitsToNat (natToRevDigits n) = n := by
  induction n using Nat.strong_induction_on with
  | _ n ih =>
    cases n with
    | zero => simp [natToRevDigits, revDigitsToNat]
    | succ m =>
      rw [natToRevDigits, revDigitsToNat,
        ih ((m + 1) / 10) (Nat.div_lt_self (Nat.succ_pos m) (by norm_num))]
      omega

theorem natToRevDigits_lt (n : Nat) : ∀ d ∈ natToRevDigits n, d < 10 := by
  induction n using Nat.strong_induction_on with
  | _ n ih =>
    cases n with
    | zero => simp [natToRevDigits]
    | succ m =>
      intro d hd
      rw [natToRevDigits] at hd
      rcases List.mem_cons.mp hd with rfl | hd
      · exact Nat.mod_lt _ (by norm_num)
      · exact ih ((m + 1) / 10) (Nat.div_lt_self (Nat.succ_pos m) (by norm_num)) d hd

def digitToChar (d : Nat) : Char := Nat.digitChar d

def charToDigit (c : Char) : Nat := c.toNat - 48

def isDigitChar (c : Char) : Bool := 48 ≤ c.toNat && c.toNat ≤ 57

theorem charToDigit_digitToChar : ∀ d : Fin 10, charToDigit (digitToChar d.val) = d.val := by
  decide

theorem isDigitChar_digitToChar : ∀ d : Fin 10, isDigitChar (digitToChar d.val) = true := by
  decide

/-- Model of Date.prototype.toISOString composed with JSON string storage:
an injective textual encoding of the epoch-millisecond instant (realised
here as big-endian decimal digits). -/
def dateToISO (t : Nat) : String := String.mk ((natToRevDigits t).reverse.map digitToChar)

/-- Model of new Date(string) on a stored timestamp text: recovers the
encoded instant, failing (the Invalid Date case) on malformed input. -/
def dateFromISO (s : String) : Option Nat :=
  if s.data.all isDigitChar then
    some (revDigitsToNat ((s.data.reverse.map charToDigit)))
  else none

theorem dateFromISO_dateToISO (t : Nat) : dateFromISO (dateToISO t) = some t := by
  unfold dateToISO dateFromISO
  have hdata : (String.mk ((natToRevDigits t).reverse.map digitToChar)).data =
      (natToRevDigits t).reverse.map digitToChar := rfl
  rw [hdata]
  have hall : ((natToRevDigits t).reverse.map digitToChar).all isDigitChar = true := by
    rw [List.all_eq_true]
    intro c hc
    rw [List.mem_map] at hc
    obtain ⟨d, hd, rfl⟩ := hc
    rw [List.mem_reverse] at hd
    exact isDigitChar_digitToChar ⟨d, natToRevDigits_lt t d hd⟩
  rw [hall]
  simp only [if_true]
  congr 1
  rw [← List.map_reverse, List.reverse_reverse, List.map_map]
  have helem : ∀ d ∈ natToRevDigits t, (charToDigit ∘ digitToChar) d = id d := by
    intro d hd
    exact charToDigit_digitToChar ⟨d, natToRevDigits_lt t d hd⟩
  rw [List.map_congr_left helem, List.map_id, revDigitsToNat_natToRevDigits]

mutual
inductive StoredRecord : Type where
  | mk : (id : String) → (label : String) → (note : Option String) →
         (parentId : Option String) → (isRunning : Bool) → (baseTime : Int) →
         (startTime : Option Int) → (time : Int) → (isCollapsed : Bool) →
         (createdAt : String) → (children : StoredRecordList) → StoredRecord
inductive StoredRecordList : Type where
  | nil : StoredRecordList
  | cons : StoredRecord → StoredRecordList → StoredRecordList
end

/- The createdAt replacer of JSON.stringify in JsonStorageProvider.saveRecord:
every field survives textually except createdAt, rewritten to its instant
encoding; the replacer applies at every depth of the children tree. -/
mutual
def serializeRecord : Record → StoredRecord
  | .mk i lb nt p run bt st tm col cr ch =>
    .mk i lb nt p run bt st tm col (dateToISO cr) (serializeChildren ch)
def serializeChildren : RecordList → StoredRecordList
  | .nil => .nil
  | .cons r l => .cons (serializeRecord r) (serializeChildren l)
end

/- The createdAt reviver of JSON.parse in JsonStorageProvider.getRecord:
rebuild the record with createdAt parsed back to an instant, at every depth;
a malformed date (the Invalid Date case) makes the lookup fail. -/
mutual
def deserializeRecord : StoredRecord → Option Record
  | .mk i lb nt p run bt st tm col cr ch =>
    match dateFromISO cr, deserializeChildren ch with
    | some d, some ch2 => some (.mk i lb nt p run bt st tm col d ch2)
    | _, _ => none
def deserializeChildren : StoredRecordList → Option RecordList
  | .nil => some .nil
  | .cons r l =>
    match deserializeRecord r, deserializeChildren l with
    | some r2, some l2 => some (.cons r2 l2)
    | _, _ => none
end

mutual
theorem deserializeRecord_serializeRecord :
    ∀ (r : Record), deserializeRecord (serializeRecord r) = some r
  | .mk i lb nt p run bt st tm col cr ch => by
    simp [serializeRecord, deserializeRecord, dateFromISO_dateToISO,
      deserializeChildren_serializeChildren ch]
theorem deserializeChildren_serializeChildren :
    ∀ (l : RecordList), deserializeChildren (serializeChildren l) = some l
  | .nil => by simp [serializeChildren, deserializeChildren]
  | .cons r l => by
    simp [serializeChildren, deserializeChildren,
      deserializeRecord_serializeRecord r, deserializeChildren_serializeChildren l]
end

def RECORDS_INDEX_KEY : String := "time_records_index"

/-- Key of a record value: the fixed record namespace followed by the record
identifier, as in the source constant concatenation. -/
def recordKey (id : String) : String := "time_record_" ++ id

/-- The record key family never collides with the index key: the twelfth
character of every record key is an underscore where the index key has the
letter s.  This justifies embedding the flat AsyncStorage keyspace as the
two split families below. -/
theorem recordKey_ne_indexKey (id : String) : recordKey id ≠ RECORDS_INDEX_KEY := by
  intro hc
  have hd : ("time_record_" ++ id).data = "time_records_index".data := by
    have hdata := congrArg String.data hc
    simp only [recordKey, RECORDS_INDEX_KEY] at hdata
    exact hdata
  rw [String.data_append] at hd
  have h12 : ("time_record_".data ++ id.data).take 12 = "time_record_".data := by
    have hlen : "time_record_".data.length = 12 := by decide
    rw [← hlen, List.take_left]
  rw [hd] at h12
  exact (by decide : ("time_records_index".data).take 12 ≠ "time_record_".data) h12

/-- Record keys are injective in the identifier. -/
theorem recordKey_inj (a b : String) (h : recordKey a = recordKey b) : a = b := by
  have hd : ("time_record_" ++ a).data = ("time_record_" ++ b).data := by
    have := congrArg String.data h
    simpa [recordKey] using this
  rw [String.data_append, String.data_append] at hd
  exact String.ext (List.append_cancel_left hd)

/-- The AsyncStorage state as used by JsonStorageProvider, split by the two
disjoint key families: record entries keyed by record key, and the optional
index value (an ordered list of identifiers, absent until first created). -/
structure Store where
  records : List (String × StoredRecord)
  index : Option (List String)

def getEntry (l : List (String × StoredRecord)) (k : String) : Option StoredRecord :=
  (l.find? (fun kv => kv.fst == k)).map Prod.snd

/-- AsyncStorage.setItem: replace any existing entry under the key. -/
def putEntry (l : List (String × StoredRecord)) (k : String) (v : StoredRecord) :
    List (String × StoredRecord) :=
  (k, v) :: l.filter (fun kv => kv.fst != k)

/-- AsyncStorage.removeItem on a record key. -/
def removeEntry (l : List (String × StoredRecord)) (k : String) :
    List (String × StoredRecord) :=
  l.filter (fun kv => kv.fst != k)

inductive PromiseOutcome : Type where
  | resolved : PromiseOutcome
  | rejected : PromiseOutcome
  deriving DecidableEq

/-- Caller-visible result of an asynchronous store operation: the new store
state, the console error messages emitted, and whether the returned promise
resolves or rejects. -/
structure StoreResult where
  store : Store
  logs : List String
  outcome : PromiseOutcome

/-- Failure injection for the underlying storage: fk k is true when a write
or removal of key k throws (device write failure, serialization error). -/
def noFail : String → Bool := fun _ => false

/-- getRecordIds of the source: the parsed index value, or the empty list
when the index entry is absent. -/
def getRecordIds (st : Store) : List String := st.index.getD []

/-- JsonStorageProvider.saveRecord: serialize with the createdAt replacer,
write the value under the record key, then updateRecordIndex (append the
identifier to the index only if not already present).  Both writes sit in
try/catch blocks that log and swallow every failure, so the call always
resolves. -/
def jsonSaveRecord (fk : String → Bool) (st : Store) (record : Record) : StoreResult :=
  if fk (recordKey record.id) then
    { store := st, logs := ["Error saving record:"], outcome := .resolved }
  else
    let st1 : Store :=
      { st with records := putEntry st.records (recordKey record.id) (serializeRecord record) }
    let recordIds := getRecordIds st1
    if record.id ∈ recordIds then
      { store := st1, logs := [], outcome := .resolved }
    else if fk RECORDS_INDEX_KEY then
      { store := st1, logs := ["Error updating record index:"], outcome := .resolved }
    else
      { store := { st1 with index := some (recordIds ++ [record.id]) },
        logs := [], outcome := .resolved }

/-- JsonStorageProvider.getRecord: read the record key and parse with the
createdAt reviver; absence and parse failure both yield null. -/
def jsonGetRecord (st : Store) (id : String) : Option Record :=
  match getEntry st.records (recordKey id) with
  | some v => deserializeRecord v
  | none => none

/-- JsonStorageProvider.deleteRecord: remove the value key, then rewrite the
index with every occurrence of the identifier filtered out; failures are
caught and logged, and the call always resolves. -/
def jsonDeleteRecord (fk : String → Bool) (st : Store) (id : String) : StoreResult :=
  if fk (recordKey id) then
    { store := st, logs := ["Error deleting record " ++ id ++ ":"], outcome := .resolved }
  else
    let st1 : Store := { st with records := removeEntry st.records (recordKey id) }
    let updatedIds := (getRecordIds st1).filter (fun recordId => recordId != id)
    if fk RECORDS_INDEX_KEY then
      { store := st1, logs := ["Error deleting record " ++ id ++ ":"], outcome := .resolved }
    else
      { store := { st1 with index := some updatedIds }, logs := [], outcome := .resolved }

/-- JsonStorageProvider.getAllRecords: resolve every identifier of the index
through getRecord, silently skipping identifiers whose value is missing or
unparseable. -/
def jsonGetAllRecords (st : Store) : List Record :=
  (getRecordIds st).filterMap (fun id => jsonGetRecord st id)

/-- JsonStorageProvider.getRootRecords: the records of getAllRecords whose
parentId is null. -/
def jsonGetRootRecords (st : Store) : List Record :=
  (jsonGetAllRecords st).filter (fun r => r.parentId == none)

/-- JsonStorageProvider.getChildRecords: the records of getAllRecords whose
parentId equals the argument. -/
def jsonGetChildRecords (st : Store) (parentId : String) : List Record :=
  (jsonGetAllRecords st).filter (fun r => r.parentId == some parentId)

/-- JsonStorageProvider.initialize: create an empty index if absent.  This
method has no try/catch, so a failing index write rejects. -/
def jsonInitStore (fk : String → Bool) (st : Store) : StoreResult :=
  match st.index with
  | some _ => { store := st, logs := [], outcome := .resolved }
  | none =>
    if fk RECORDS_INDEX_KEY then { store := st, logs := [], outcome := .rejected }
    else { store := { st with index := some [] }, logs := [], outcome := .resolved }

/-- JsonStorageProvider.clearAllData: remove every indexed record key and the
index itself; failures are caught and logged, and the call resolves. -/
def jsonClearAllData (fk : String → Bool) (st : Store) : StoreResult :=
  let recordIds := getRecordIds st
  let recs := recordIds.foldl
    (fun acc id => if fk (recordKey id) then acc else removeEntry acc (recordKey id)) st.records
  let idx := if fk RECORDS_INDEX_KEY then st.index else none
  let failed := recordIds.any (fun id => fk (recordKey id)) || fk RECORDS_INDEX_KEY
  { store := { records := recs, index := idx },
    logs := if failed then ["Error clearing storage:"] else [], outcome := .resolved }

/-- StorageService.saveRecord: the service facade awaits the provider
operation unchanged. -/
def storageServiceSaveRecord : (String → Bool) → Store → Record → StoreResult :=
  jsonSaveRecord

/-- StorageService.loadRecord delegates to the provider. -/
def storageServiceLoadRecord : Store → String → Option Record := jsonGetRecord

def demoRecord : Record := mkRec "d1" none false 0 none 0 RecordList.nil

def emptyStore : Store := { records := [], index := some [] }

/-- C7 counterexample: with every underlying write failing, saveRecord still
resolves as an ordinary success; the failure is never surfaced to the caller
as a failed (rejected) operation, contradicting the claimed policy. -/
theorem save_failure_not_surfaced :
    (storageServiceSaveRecord (fun _ => true) emptyStore demoRecord).outcome ≠
      PromiseOutcome.rejected := by
  decide

/-- C7 amended: a storage I/O failure during saveRecord is caught at the
provider boundary and logged, but the operation then resolves as an ordinary
success: the caller cannot distinguish it from a successful save.  When the
record value write fails the store is left unchanged; the service facade
forwards the provider result untouched. -/
theorem save_failure_caught_logged_resolved (fk : String → Bool) (st : Store) (r : Record)
    (hfail : fk (recordKey (Record.id r)) = true) :
    jsonSaveRecord fk st r =
      { store := st, logs := ["Error saving record:"], outcome := PromiseOutcome.resolved } ∧
    storageServiceSaveRecord fk st r = jsonSaveRecord fk st r := by
  constructor
  · unfold jsonSaveRecord
    simp [hfail]
  · rfl

/-- Concrete instance of save_failure_caught_logged_resolved with every
write failing on the empty store. -/
theorem save_failure_caught_logged_resolved_witness :
    jsonSaveRecord (fun _ => true) emptyStore demoRecord =
      { store := emptyStore, logs := ["Error saving record:"],
        outcome := PromiseOutcome.resolved } ∧
    storageServiceSaveRecord (fun _ => true) emptyStore demoRecord =
      jsonSaveRecord (fun _ => true) emptyStore demoRecord :=
  save_failure_caught_logged_resolved (fun _ => true) emptyStore demoRecord rfl

theorem getEntry_mem (l : List (String × StoredRecord)) (k : String) (v : StoredRecord)
    (h : getEntry l k = some v) : (k, v) ∈ l := by
  unfold getEntry at h
  cases hf : l.find? (fun kv => kv.fst == k) with
  | none => rw [hf] at h; cases h
  | some kv =>
    rw [hf] at h
    have hmem := List.mem_of_find?_eq_some hf
    have hpred := List.find?_some hf
    cases kv with
    | mk k0 v0 =>
      simp at hpred h
      rw [hpred] at hmem
      rw [h] at hmem
      exact hmem

theorem getEntry_putEntry (l : List (String × StoredRecord)) (k : String) (v : StoredRecord) :
    getEntry (putEntry l k v) k = some v := by
  unfold getEntry putEntry
  rw [List.find?_cons_of_pos _ (by simp)]
  rfl

/-- Decidable store well-formedness: every stored value that parses is
stored under the record key of its own identifier. -/
def StoreWF (st : Store) : Bool :=
  st.records.all (fun kv =>
    match deserializeRecord kv.snd with
    | some r => kv.fst == recordKey (Record.id r)
    | none => true)

/-- C8: deleteRecord rewrites the index with every occurrence of the
identifier removed; getAllRecords resolves exactly the identifiers of the
index through getRecord, silently skipping identifiers without a stored
value; hence in a well-formed store no record with the deleted identifier is
returned by a subsequent getAllRecords, regardless of whether its value key
is still present. -/
theorem delete_removes_from_index (st : Store) (id : String) :
    getRecordIds (jsonDeleteRecord noFail st id).store =
      (getRecordIds st).filter (fun recordId => recordId != id) ∧
    jsonGetAllRecords st = (getRecordIds st).filterMap (fun i => jsonGetRecord st i) ∧
    (StoreWF st = true →
      ∀ r ∈ jsonGetAllRecords (jsonDeleteRecord noFail st id).store, Record.id r ≠ id) := by
  have hstore : (jsonDeleteRecord noFail st id).store =
      { records := removeEntry st.records (recordKey id),
        index := some ((getRecordIds st).filter (fun recordId => recordId != id)) } := by
    unfold jsonDeleteRecord
    simp [noFail]
    rfl
  refine ⟨?_, rfl, ?_⟩
  · rw [hstore]
    rfl
  · intro hwf r hr
    rw [hstore] at hr
    unfold jsonGetAllRecords at hr
    rw [List.mem_filterMap] at hr
    obtain ⟨i, hi, hget⟩ := hr
    have hi2 : i ∈ (getRecordIds st).filter (fun recordId => recordId != id) := hi
    rw [List.mem_filter] at hi2
    have hneq : i ≠ id := by simpa using hi2.2
    unfold jsonGetRecord at hget
    cases hge : getEntry (removeEntry st.records (recordKey id)) (recordKey i) with
    | none =>
      rw [hge] at hget
      cases hget
    | some v =>
      rw [hge] at hget
      have hget2 : deserializeRecord v = some r := hget
      have hkv : (recordKey i, v) ∈ st.records :=
        List.mem_of_mem_filter (getEntry_mem _ _ _ hge)
      have hall := List.all_eq_true.mp hwf _ hkv
      simp [hget2] at hall
      have hid : i = Record.id r := recordKey_inj _ _ hall
      rw [← hid]
      exact hneq

/-- Fixture store: values for x and y, and an index additionally containing
the identifier ghost whose value is missing. -/
def demoStore8 : Store :=
  { records := [(recordKey "x", serializeRecord (mkRec "x" none false 1 none 1 RecordList.nil)),
                (recordKey "y", serializeRecord (mkRec "y" none false 2 none 2 RecordList.nil))],
    index := some ["x", "y", "ghost"] }

/-- Concrete instance of delete_removes_from_index on a store whose index
contains an identifier without a stored value. -/
theorem delete_removes_from_index_witness :
    getRecordIds (jsonDeleteRecord noFail demoStore8 "x").store =
      (getRecordIds demoStore8).filter (fun recordId => recordId != "x") ∧
    jsonGetAllRecords demoStore8 =
      (getRecordIds demoStore8).filterMap (fun i => jsonGetRecord demoStore8 i) ∧
    (∀ r ∈ jsonGetAllRecords (jsonDeleteRecord noFail demoStore8 "x").store,
      Record.id r ≠ "x") := by
  have h := delete_removes_from_index demoStore8 "x"
  have hwf : StoreWF demoStore8 = true := by
    simp [StoreWF, demoStore8, deserializeRecord_serializeRecord, mkRec, Record.id]
  exact ⟨h.1, h.2.1, h.2.2 hwf⟩

/-- C9: saving a record (with no storage failure) and loading it back by its
identifier reproduces every persisted field exactly; equivalently, the
deserializer is a left inverse of the serializer: label, note, parentId, the
whole children tree, isRunning, the integer fields baseTime, startTime and
time (exact, no precision loss), isCollapsed, and createdAt restored to the
same instant. -/
theorem save_load_roundtrip (st : Store) (r : Record) :
    jsonGetRecord (jsonSaveRecord noFail st r).store (Record.id r) = some r ∧
    deserializeRecord (serializeRecord r) = some r := by
  constructor
  · have hrec : (jsonSaveRecord noFail st r).store.records =
        putEntry st.records (recordKey (Record.id r)) (serializeRecord r) := by
      unfold jsonSaveRecord
      simp only [noFail, Bool.false_eq_true, if_false]
      split
      · rfl
      · rfl
    unfold jsonGetRecord
    rw [hrec, getEntry_putEntry]
    exact deserializeRecord_serializeRecord r
  · exact deserializeRecord_serializeRecord r

/-- C10: starting from an index without duplicate identifiers, every store
operation preserves uniqueness, under any pattern of write failures:
initialize keeps or creates an empty index, saveRecord appends the
identifier only when not already present, deleteRecord filters out every
occurrence, and clearAllData leaves the index unchanged or removed. -/
theorem index_nodup_preserved (fk : String → Bool) (st : Store) (r : Record) (id : String)
    (hnd : (getRecordIds st).Nodup) :
    (getRecordIds (jsonInitStore fk st).store).Nodup ∧
    (getRecordIds (jsonSaveRecord fk st r).store).Nodup ∧
    (getRecordIds (jsonDeleteRecord fk st id).store).Nodup ∧
    (getRecordIds (jsonClearAllData fk st).store).Nodup := by
  refine ⟨?_, ?_, ?_, ?_⟩
  · unfold jsonInitStore
    split
    · exact hnd
    · split
      · exact hnd
      · simp [getRecordIds]
  · unfold jsonSaveRecord
    dsimp only
    split_ifs with h1 h2 h3
    · exact hnd
    · exact hnd
    · exact hnd
    · show ((getRecordIds st) ++ [Record.id r]).Nodup
      have h2b : Record.id r ∉ getRecordIds st := h2
      rw [List.nodup_append]
      refine ⟨hnd, List.nodup_singleton _, ?_⟩
      intro x hx hxs
      rw [List.mem_singleton] at hxs
      subst hxs
      exact h2b hx
  · unfold jsonDeleteRecord
    split
    · exact hnd
    · split
      · exact hnd
      · exact List.Nodup.filter _ hnd
  · unfold jsonClearAllData
    simp only [getRecordIds]
    split
    · exact hnd
    · simp

/-- Concrete instance of index_nodup_preserved on a store whose index holds
three distinct identifiers. -/
theorem index_nodup_preserved_witness :
    (getRecordIds (jsonInitStore noFail demoStore8).store).Nodup ∧
    (getRecordIds (jsonSaveRecord noFail demoStore8 demoRecord).store).Nodup ∧
    (getRecordIds (jsonDeleteRecord noFail demoStore8 "x").store).Nodup ∧
    (getRecordIds (jsonClearAllData noFail demoStore8).store).Nodup :=
  index_nodup_preserved noFail demoStore8 demoRecord "x" (by decide)
